import Mathlib

/-!
Verification of the chord-transposer core (`src/lib/transpose.ts`,
`src/lib/capo.ts`, `src/lib/chords.ts`) against its specification.

The TypeScript sources are shallowly embedded: strings are `String`
(lists of Unicode scalar `Char`s), JavaScript numbers used here are
`Int`/`Nat` (all arithmetic in the source is small-integer arithmetic,
except the capo scores which are exact multiples of 1/2 and are modelled
as `ℚ`), regular expressions are translated to executable character-list
functions, and the one `throw` in the source (`toSharp` in
`src/lib/chords.ts`) is modelled with `Except`.
-/

/- ----------------------------------------------------------------
Character helpers (JavaScript semantics)
----------------------------------------------------------------- -/

/-- JavaScript `\s` / `String.prototype.trim` whitespace class. -/
def jsIsSpace (c : Char) : Bool :=
  [' ', '\t', '\n', '\x0b', '\x0c', '\r', '\u00a0', '\u1680'].contains c ||
  (0x2000 ≤ c.val && c.val ≤ 0x200a) ||
  ['\u2028', '\u2029', '\u202f', '\u205f', '\u3000', '\ufeff'].contains c

/-- ASCII uppercasing, the fragment of `toUpperCase` relevant to the
note/chord alphabet. -/
def jsToUpper (c : Char) : Char :=
  if 'a' ≤ c && c ≤ 'z' then Char.ofNat (c.toNat - 32) else c

/-- ASCII lowercasing, the fragment of `toLowerCase` relevant here. -/
def jsToLower (c : Char) : Char :=
  if 'A' ≤ c && c ≤ 'Z' then Char.ofNat (c.toNat + 32) else c

/-- JavaScript `str.replace(pat, rep)` with a single-character pattern:
replaces only the first occurrence. -/
def replaceFirst (pat rep : Char) : List Char → List Char
  | [] => []
  | c :: cs => if c = pat then rep :: cs else c :: replaceFirst pat rep cs

/-- JavaScript `String.prototype.trim`. -/
def jsTrim (l : List Char) : List Char :=
  ((l.dropWhile jsIsSpace).reverse.dropWhile jsIsSpace).reverse

/-- `Math.max` on integers. -/
def jsMaxI (a b : Int) : Int := if a ≤ b then b else a

/-- `Math.max` on naturals. -/
def jsMaxN (a b : Nat) : Nat := if a ≤ b then b else a

/-- `Math.min` on naturals. -/
def jsMinN (a b : Nat) : Nat := if a ≤ b then a else b

/-- `Math.max` on rationals. -/
def jsMaxQ (a b : ℚ) : ℚ := if a ≤ b then b else a

/-- Equality of `Except` values is decidable componentwise. -/
instance {ε α : Type} [DecidableEq ε] [DecidableEq α] : DecidableEq (Except ε α) := fun x y =>
  match x, y with
  | Except.ok a, Except.ok b =>
    if h : a = b then isTrue (by rw [h]) else isFalse (by simp [h])
  | Except.error e, Except.error f =>
    if h : e = f then isTrue (by rw [h]) else isFalse (by simp [h])
  | Except.ok _, Except.error _ => isFalse (by simp)
  | Except.error _, Except.ok _ => isFalse (by simp)

/- ----------------------------------------------------------------
`src/lib/transpose.ts`
----------------------------------------------------------------- -/

/-- `SHARPS` (transpose.ts line 3). -/
def SHARPS : List String :=
  ["C", "C#", "D", "D#", "E", "F"] ++ ["F#", "G", "G#", "A", "A#", "B"]

/-- `FLATS` (transpose.ts line 4). -/
def FLATS : List String :=
  ["C", "Db", "D", "Eb", "E", "F"] ++ ["Gb", "G", "Ab", "A", "Bb", "B"]

/-- `ENHARMONIC_MAP` (transpose.ts lines 8-21), as a lookup function. -/
def enhIndex (note : String) : Option Nat :=
  match note with
  | "C" => some 0
  | "B#" => some 0
  | "C#" => some 1
  | "Db" => some 1
  | "D" => some 2
  | "D#" => some 3
  | "Eb" => some 3
  | "E" => some 4
  | "Fb" => some 4
  | "F" => some 5
  | "E#" => some 5
  | "F#" => some 6
  | "Gb" => some 6
  | "G" => some 7
  | "G#" => some 8
  | "Ab" => some 8
  | "A" => some 9
  | "A#" => some 10
  | "Bb" => some 10
  | "B" => some 11
  | "Cb" => some 11
  | _ => none

/-- `SHARP_KEYS` (transpose.ts line 23). -/
def SHARP_KEYS : List String := ["G", "D", "A", "E", "B", "F#", "C#"]

/-- `FLAT_KEYS` (transpose.ts line 24). -/
def FLAT_KEYS : List String := ["F", "Bb", "Eb", "Ab", "Db", "Gb", "Cb"]

/-- `preferSharpsForKey` (transpose.ts lines 31-35). -/
def preferSharpsForKey (key : String) : Bool :=
  if SHARP_KEYS.contains key then true
  else if FLAT_KEYS.contains key then false
  else true

/-- First character, uppercased (`t[0]?.toUpperCase()` in `normNote`);
an empty list models the `undefined` case, which never hits the map. -/
def headUpper : List Char → List Char
  | [] => []
  | c :: _ => [jsToUpper c]

/-- Accidental character (`t[1] === "#" || t[1] === "b" ? t[1] : ""`). -/
def accidOf : List Char → List Char
  | _ :: c :: _ => if c = '#' ∨ c = 'b' then [c] else []
  | _ => []

/-- `normNote` (transpose.ts lines 37-44). -/
def normNote (raw : String) : Option String :=
  if raw = "" then none
  else
    let t := jsTrim (replaceFirst '♭' 'b' (replaceFirst '♯' '#' raw.data))
    let note := String.mk (headUpper t ++ accidOf t)
    match enhIndex note with
    | some _ => some note
    | none => none

/-- `indexOf` (transpose.ts lines 46-48); defined (`getD 0` is arbitrary)
only where `enhIndex` hits, exactly as in the source. -/
def indexOfNote (note : String) : Nat := (enhIndex note).getD 0

/-- `((x % 12) + 12) % 12` — the normalisation used in `chooseSpelling`
and `transposeNote`.  (With JavaScript's truncating `%` this composite
is the Euclidean remainder, which is what Lean's `Int.emod` computes, so
the expression carries over verbatim.) -/
def norm12 (x : Int) : Int := (x % 12 + 12) % 12

/-- `chooseSpelling` (transpose.ts lines 50-53). -/
def chooseSpelling (semitone : Int) (preferSharps : Bool) : String :=
  let s := norm12 semitone
  (if preferSharps then SHARPS else FLATS).getD s.toNat "C"

/-- `transposeNote` (transpose.ts lines 55-61). -/
def transposeNote (noteRaw : String) (steps : Int) (preferSharps : Bool) : String :=
  match normNote noteRaw with
  | none => noteRaw
  | some note =>
    let idx : Int := indexOfNote note
    let outIdx := norm12 (idx + steps)
    chooseSpelling outIdx preferSharps

/-- Pitch class of a spelling: `ENHARMONIC_MAP` applied after `normNote`. -/
def pitchClassOf (s : String) : Option Nat := (normNote s).bind enhIndex

/-- `[A-G]` under the `/i` flag. -/
def isRootLetter (c : Char) : Bool :=
  ('A' ≤ c && c ≤ 'G') || ('a' ≤ c && c ≤ 'g')

/-- `CHORD_RE = /^([A-G](?:#|b)?)([^\/\s]*)$/i` (transpose.ts line 63):
returns the (root, tail) capture groups when the regex matches.  The
match succeeds exactly when the first character is a root letter (either
case) and no later character is `/` or whitespace; the greedy optional
accidental absorbs a following `#`, `b` or (case-insensitively) `B`. -/
def chordReMatch (l : List Char) : Option (List Char × List Char) :=
  match l with
  | [] => none
  | c :: rest =>
    if isRootLetter c = true ∧ (∀ d ∈ rest, d ≠ '/' ∧ jsIsSpace d = false) then
      match rest with
      | d :: rest2 =>
        if d = '#' ∨ d = 'b' ∨ d = 'B' then some ([c, d], rest2)
        else some ([c], rest)
      | [] => some ([c], [])
    else none

/-- Non-slash arm of `transposeChordSymbol` (transpose.ts lines 70-74). -/
def tcsNoSlash (l : List Char) (steps : Int) (p : Bool) : List Char :=
  match chordReMatch l with
  | none => l
  | some (root, tail) => (transposeNote (String.mk root) steps p).data ++ tail

/-- `transposeChordSymbol` (transpose.ts lines 65-75).  The source splits
on `/` and recurses on the first two pieces; those pieces are
slash-free, so the recursive calls take the regex arm, inlined here as
`tcsNoSlash`. -/
def transposeChordSymbol (symbol : String) (steps : Int) (preferSharps : Bool) : String :=
  if '/' ∈ symbol.data then
    let top := symbol.data.takeWhile (fun c => c ≠ '/')
    let rest := symbol.data.dropWhile (fun c => c ≠ '/')
    let bass := (rest.drop 1).takeWhile (fun c => c ≠ '/')
    String.mk (tcsNoSlash top steps preferSharps ++ '/' :: tcsNoSlash bass steps preferSharps)
  else
    String.mk (tcsNoSlash symbol.data steps preferSharps)

/-- Single-character alternatives of the tail alternation of
`isChordLike`'s regex (under `/i`):
`m`, `\d`, `/`, `[A-G]`, `#`, `b`, `+`, `-`, `°`, `Δ`. -/
def singleTailChar (c : Char) : Bool :=
  let u := jsToUpper c
  u == 'M' || ('0' ≤ c && c ≤ '9') || c == '/' || ('A' ≤ u && u ≤ 'G') ||
  c == '#' || c == '+' || c == '-' || c == '°' || c == 'Δ' || c == 'δ'

/-- Three-character alternatives `maj|min|dim|aug|sus|add` (under `/i`). -/
def tripleTail (a b c : Char) : Bool :=
  let s := [jsToUpper a, jsToUpper b, jsToUpper c]
  s == ['M', 'A', 'J'] || s == ['M', 'I', 'N'] || s == ['D', 'I', 'M'] ||
  s == ['A', 'U', 'G'] || s == ['S', 'U', 'S'] || s == ['A', 'D', 'D']

/-- Membership of a string in the star of the tail alternation: the
string is a concatenation of one- and three-character alternatives. -/
def tailStar : List Char → Bool
  | [] => true
  | c :: b :: d :: rest =>
    (singleTailChar c && tailStar (b :: d :: rest)) ||
      (tripleTail c b d && tailStar rest)
  | [c] => singleTailChar c && tailStar []
  | [c, b] => singleTailChar c && tailStar [b]

/-- `isChordLike` (transpose.ts lines 94-96):
`/^[A-G](?:#|b)?(?:m|maj|min|dim|aug|sus|add|\d|\/|[A-G]|#|b|\+|\-|°|Δ)*$/i`.
The anchored backtracking match succeeds exactly on the language of the
pattern: a root letter, an optional accidental, then the starred
alternation. -/
def isChordLike (s : String) : Bool :=
  match s.data with
  | [] => false
  | c :: rest =>
    isRootLetter c &&
      (tailStar rest ||
        (match rest with
         | d :: rest2 => (d == '#' || d == 'b' || d == 'B') && tailStar rest2
         | [] => true))

/-- The splitter class `[,\|\(\)\[\]]` of `maybeTransposeToken`. -/
def punctChar (c : Char) : Bool :=
  c == ',' || c == '|' || c == '(' || c == ')' || c == '[' || c == ']'

/-- JavaScript `tok.split(/([,\|\(\)\[\]])/)`: splits at each punctuation
character, keeping each separator as its own one-character element (with
empty pieces between adjacent separators and at the ends). -/
def splitPunct : List Char → List (List Char)
  | [] => [[]]
  | c :: cs =>
    let r := splitPunct cs
    if punctChar c then [] :: [c] :: r
    else
      match r with
      | t :: rest => (c :: t) :: rest
      | [] => [[c]]

/-- `maybeTransposeToken` (transpose.ts lines 82-92). -/
def maybeTransposeToken (tok : String) (steps : Int) (p : Bool) : String :=
  if tok.data.isEmpty || tok.data.all jsIsSpace then tok
  else if tok.data.any punctChar = true ∧ '/' ∉ tok.data then
    String.mk (((splitPunct tok.data).map (fun piece =>
      if isChordLike (String.mk piece) then (transposeChordSymbol (String.mk piece) steps p).data
      else piece)).flatten)
  else if isChordLike tok then transposeChordSymbol tok steps p
  else tok

/-- JavaScript `input.split(/(\s+)/)`: splits on maximal whitespace runs,
keeping the runs themselves as elements; the result alternates
(possibly empty, at the ends) non-whitespace pieces with nonempty
whitespace runs. -/
def jsSplitWs : List Char → List (List Char)
  | [] => [[]]
  | c :: cs =>
    let r := jsSplitWs cs
    if jsIsSpace c then
      match r with
      | [] :: w :: rest => [] :: (c :: w) :: rest
      | _ => [] :: [c] :: r
    else
      match r with
      | t :: rest => (c :: t) :: rest
      | [] => [[c]]

/-- `transposeChordText` (transpose.ts lines 77-80). -/
def transposeChordText (input : String) (steps : Int) (p : Bool) : String :=
  String.mk (((jsSplitWs input.data).map
    (fun tok => (maybeTransposeToken (String.mk tok) steps p).data)).flatten)

/-- `stepsFromKeys` (transpose.ts lines 98-102). -/
def stepsFromKeys (fromKey toKey : String) : Int :=
  let f : Nat := match enhIndex fromKey with
    | some k => k
    | none => (enhIndex ((normNote fromKey).getD "C")).getD 0
  let t : Nat := match enhIndex toKey with
    | some k => k
    | none => (enhIndex ((normNote toKey).getD "C")).getD 0
  (t : Int) - (f : Int)

/- ----------------------------------------------------------------
Stable sorting (JavaScript `Array.prototype.sort` with a consistent
comparator is a stable sort; modelled as stable insertion sort)
----------------------------------------------------------------- -/

/-- Insert `x` into `l`, placing it before the first element `y` with
`le x y`; with `le x y` meaning "the comparator does not put `y`
strictly before `x`", this reproduces a stable sort's placement. -/
def stableInsert {α : Type} (le : α → α → Bool) (x : α) : List α → List α
  | [] => [x]
  | y :: ys => if le x y then x :: y :: ys else y :: stableInsert le x ys

/-- Stable insertion sort. -/
def stableSort {α : Type} (le : α → α → Bool) : List α → List α
  | [] => []
  | x :: xs => stableInsert le x (stableSort le xs)

/- ----------------------------------------------------------------
`src/lib/capo.ts`
----------------------------------------------------------------- -/

/-- `OPEN_SHAPE_KEYS` (capo.ts line 8). -/
def OPEN_SHAPE_KEYS : List String := ["C", "G", "D", "A", "E"]

/-- `shapesKeyFor` (capo.ts lines 14-17). -/
def shapesKeyFor (targetKey : String) (capoFret : Nat) : String :=
  transposeNote targetKey (-(capoFret : Int)) (preferSharpsForKey targetKey)

/-- `CapoSuggestion` (capo.ts lines 19-24).  Scores are exact multiples
of 1/2 in the source (binary64 arithmetic on such values is exact), so
they are modelled as rationals. -/
structure CapoSuggestion where
  capoFret : Nat
  shapesKey : String
  reason : String
  score : ℚ
  deriving DecidableEq, Repr

/-- The tie-breaking bias of `scoreCapo` (capo.ts lines 44-45):
`Math.max(0, 5 - Math.max(0, biasOrder.indexOf(shapesKey))) * 0.5`,
where `indexOf` is -1 for keys not in the list. -/
def capoBias (shapesKey : String) : ℚ :=
  let idx : Int :=
    ((["G", "C", "D", "A", "E"].findIdx? (fun s => s == shapesKey)).map
      (fun n => (n : Int))).getD (-1)
  ((jsMaxI 0 (5 - jsMaxI 0 idx) : Int) : ℚ) * (1 / 2)

/-- `scoreCapo` (capo.ts lines 33-49). -/
def scoreCapo (shapesKey : String) (capoFret : Nat) : ℚ :=
  let base : ℚ := if OPEN_SHAPE_KEYS.contains shapesKey then 100 else 0
  let comfort : ℚ :=
    if capoFret ≤ 5 then 20 - (capoFret : ℚ) * 2
    else jsMaxQ 0 (10 - ((capoFret : ℚ) - 5) * 3)
  base + comfort + capoBias shapesKey

/-- `reasonFor` (capo.ts lines 51-62). -/
def reasonFor (shapesKey : String) (capoFret : Nat) : String :=
  if capoFret == 0 && OPEN_SHAPE_KEYS.contains shapesKey then
    "No capo needed — classic open " ++ shapesKey ++ " shapes"
  else if OPEN_SHAPE_KEYS.contains shapesKey then
    "Open " ++ shapesKey ++ " shapes (easy chord grips)"
  else if capoFret ≤ 2 then "Low capo, comfortable reach"
  else "Usable option"

/-- The twelve candidate suggestions built by the loop of
`suggestCaposForTargetKey` (capo.ts lines 71-80). -/
def capoCandidates (targetKey : String) : List CapoSuggestion :=
  (List.range 12).map (fun fret =>
    let sk := shapesKeyFor targetKey fret
    { capoFret := fret, shapesKey := sk, reason := reasonFor sk fret,
      score := scoreCapo sk fret })

/-- The sort comparator `(a, b) => b.score - a.score` (capo.ts line 83):
`a` stays before `b` exactly when the comparator is ≤ 0. -/
def capoLE (a b : CapoSuggestion) : Bool := decide (b.score ≤ a.score)

/-- `suggestCaposForTargetKey` (capo.ts lines 68-87). -/
def suggestCaposForTargetKey (targetKey : String) : List CapoSuggestion :=
  (stableSort capoLE (capoCandidates targetKey)).take 5

/- ----------------------------------------------------------------
`src/lib/chords.ts`
----------------------------------------------------------------- -/

/-- `Barre` (chords.ts lines 8-12). -/
structure Barre where
  fromString : Nat
  toString : Nat
  fret : Nat
  deriving DecidableEq, Repr

/-- `Shape` (chords.ts lines 14-22); the optional fields are `Option`s
(`barres` defaults to the empty list). -/
structure Shape where
  name : String
  shortName : Option String
  positions : List Int
  baseFret : Nat
  barres : List Barre
  quality : Option String
  family : Option String
  deriving DecidableEq, Repr

/-- `NOTE_ORDER_SHARPS` (chords.ts line 73). -/
def NOTE_ORDER_SHARPS : List String :=
  ["C", "C#", "D", "D#"] ++ ["E", "F", "F#", "G"] ++ ["G#", "A", "A#", "B"]

/-- The `enh` record inside `toSharp` (chords.ts lines 78-82). -/
def enhToSharp (n : String) : Option String :=
  if n = "B#" then some "C"
  else if n = "Cb" then some "B"
  else if n = "E#" then some "F"
  else if n = "Fb" then some "E"
  else if n = "Db" then some "C#"
  else if n = "Eb" then some "D#"
  else if n = "Gb" then some "F#"
  else if n = "Ab" then some "G#"
  else if n = "Bb" then some "A#"
  else none

/-- `toSharp` (chords.ts lines 76-86); the `throw new Error(...)` is the
`Except.error` arm. -/
def toSharp (note : String) : Except String String :=
  let n := String.mk (replaceFirst '♭' 'b' (replaceFirst '♯' '#' note.data))
  let sharped := (enhToSharp n).getD n
  if NOTE_ORDER_SHARPS.contains sharped then Except.ok sharped
  else Except.error ("Bad note: " ++ note)

/-- Line-terminator characters, which `.` does not match in a JavaScript
regex without the `s` flag. -/
def lineTerm (c : Char) : Bool :=
  c == '\n' || c == '\r' || c.val == 0x2028 || c.val == 0x2029

/-- The regex `/^([A-G](?:#|b)?)(.*)$/i` of `parseChordSymbol`
(chords.ts line 178): matches exactly when the first character is a
root letter (either case) and no later character is a line terminator;
the greedy accidental group absorbs a following `#`, `b` or `B`. -/
def parseRe (l : List Char) : Option (List Char × List Char) :=
  match l with
  | [] => none
  | c :: rest =>
    if isRootLetter c = true ∧ (∀ d ∈ rest, lineTerm d = false) then
      match rest with
      | d :: rest2 =>
        if d = '#' ∨ d = 'b' ∨ d = 'B' then some ([c, d], rest2)
        else some ([c], rest)
      | [] => some ([c], [])
    else none

/-- `parseChordSymbol` (chords.ts lines 177-183); it calls
`normalizeEnharmonic` = `toSharp` on the raw matched root, which can
throw, hence the `Except`. -/
def parseChordSymbol (symbol : String) : Except String (Option (String × String)) :=
  match parseRe symbol.data with
  | none => Except.ok none
  | some (root, tail) =>
    match toSharp (String.mk root) with
    | Except.error e => Except.error e
    | Except.ok r => Except.ok (some (r, String.mk (tail.map jsToLower)))

/-- `[A-Za-z0-9_]`, the regex word-character class (for `\b`). -/
def isWordChar (c : Char) : Bool :=
  c.isAlpha || c.isDigit || c == '_'

/-- Scan for `/\bm(?!aj)/` (chords.ts lines 187-188): some `m` preceded
by start-of-string or a non-word character and not followed by `aj`. -/
def hasMinorMAux (prev : Option Char) : List Char → Bool
  | [] => false
  | c :: rest =>
    (c == 'm' &&
      (match prev with
       | none => true
       | some q => !isWordChar q) &&
      !(rest.take 2 == ['a', 'j'])) || hasMinorMAux (some c) rest

/-- `/\bm(?!aj)/.test(tail)`. -/
def hasMinorM (l : List Char) : Bool := hasMinorMAux none l

/-- `startsWith pat l`: `pat` is a prefix of `l`. -/
def startsWith : List Char → List Char → Bool
  | [], _ => true
  | _ :: _, [] => false
  | p :: ps, c :: cs => p == c && startsWith ps cs

/-- JavaScript `String.prototype.includes`: substring occurrence. -/
def hasSubstr (pat : List Char) : List Char → Bool
  | [] => startsWith pat []
  | c :: cs => startsWith pat (c :: cs) || hasSubstr pat cs

/-- `coarseQuality` (chords.ts lines 185-193). -/
def coarseQuality (tail : String) : String :=
  let l := tail.data
  if hasSubstr "maj7".data l then "maj7"
  else if hasMinorM l && hasSubstr "7".data l then "m7"
  else if hasMinorM l then "min"
  else if hasSubstr "7".data l then "7"
  else if hasSubstr "sus4".data l then "sus4"
  else if hasSubstr "add9".data l then "add9"
  else "majLike"

/-- `OPEN_SHAPES` (chords.ts lines 28-66), as an association list. -/
def OPEN_SHAPES : List (String × Shape) :=
  [("C",
    { name := "C", shortName := some "C", positions := [-1, 3, 2, 0, 1, 0],
      baseFret := 1, barres := [], quality := some "maj", family := some "open" }),
   ("D",
    { name := "D", shortName := some "D", positions := [-1, -1, 0, 2, 3, 2],
      baseFret := 1, barres := [], quality := some "maj", family := some "open" }),
   ("E",
    { name := "E", shortName := some "E", positions := [0, 2, 2, 1, 0, 0],
      baseFret := 1, barres := [], quality := some "maj", family := some "open" }),
   ("G",
    { name := "G", shortName := some "G", positions := [3, 2, 0, 0, 0, 3],
      baseFret := 1, barres := [], quality := some "maj", family := some "open" }),
   ("A",
    { name := "A", shortName := some "A", positions := [-1, 0, 2, 2, 2, 0],
      baseFret := 1, barres := [], quality := some "maj", family := some "open" }),
   ("F",
    { name := "F (lite)", shortName := some "F", positions := [-1, -1, 3, 2, 1, 1],
      baseFret := 1, barres := [], quality := some "maj", family := some "open" }),
   ("Cmaj7",
    { name := "Cmaj7", shortName := some "Cmaj7", positions := [-1, 3, 2, 0, 0, 0],
      baseFret := 1, barres := [], quality := some "maj7", family := some "open" }),
   ("Amaj7",
    { name := "Amaj7", shortName := some "Amaj7", positions := [-1, 0, 2, 1, 2, 0],
      baseFret := 1, barres := [], quality := some "maj7", family := some "open" }),
   ("Dmaj7",
    { name := "Dmaj7", shortName := some "Dmaj7", positions := [-1, -1, 0, 2, 2, 2],
      baseFret := 1, barres := [], quality := some "maj7", family := some "open" }),
   ("Fmaj7",
    { name := "Fmaj7", shortName := some "Fmaj7", positions := [-1, -1, 3, 2, 1, 0],
      baseFret := 1, barres := [], quality := some "maj7", family := some "open" }),
   ("Am",
    { name := "Am", shortName := some "Am", positions := [-1, 0, 2, 2, 1, 0],
      baseFret := 1, barres := [], quality := some "min", family := some "open" }),
   ("Dm",
    { name := "Dm", shortName := some "Dm", positions := [-1, -1, 0, 2, 3, 1],
      baseFret := 1, barres := [], quality := some "min", family := some "open" }),
   ("Em",
    { name := "Em", shortName := some "Em", positions := [0, 2, 2, 0, 0, 0],
      baseFret := 1, barres := [], quality := some "min", family := some "open" }),
   ("Am7",
    { name := "Am7", shortName := some "Am7", positions := [-1, 0, 2, 0, 1, 0],
      baseFret := 1, barres := [], quality := some "m7", family := some "open" }),
   ("Em7",
    { name := "Em7", shortName := some "Em7", positions := [0, 2, 2, 0, 3, 0],
      baseFret := 1, barres := [], quality := some "m7", family := some "open" }),
   ("C7",
    { name := "C7", shortName := some "C7", positions := [-1, 3, 2, 3, 1, 0],
      baseFret := 1, barres := [], quality := some "7", family := some "open" }),
   ("D7",
    { name := "D7", shortName := some "D7", positions := [-1, -1, 0, 2, 1, 2],
      baseFret := 1, barres := [], quality := some "7", family := some "open" }),
   ("E7",
    { name := "E7", shortName := some "E7", positions := [0, 2, 0, 1, 0, 0],
      baseFret := 1, barres := [], quality := some "7", family := some "open" }),
   ("G7",
    { name := "G7", shortName := some "G7", positions := [3, 2, 0, 0, 0, 1],
      baseFret := 1, barres := [], quality := some "7", family := some "open" }),
   ("A7",
    { name := "A7", shortName := some "A7", positions := [-1, 0, 2, 0, 2, 0],
      baseFret := 1, barres := [], quality := some "7", family := some "open" }),
   ("Asus4",
    { name := "Asus4", shortName := some "Asus4", positions := [-1, 0, 2, 2, 3, 0],
      baseFret := 1, barres := [], quality := some "sus4", family := some "open" }),
   ("Dsus4",
    { name := "Dsus4", shortName := some "Dsus4", positions := [-1, -1, 0, 2, 3, 3],
      baseFret := 1, barres := [], quality := some "sus4", family := some "open" }),
   ("Cadd9",
    { name := "Cadd9", shortName := some "Cadd9", positions := [-1, 3, 2, 0, 3, 3],
      baseFret := 1, barres := [], quality := some "add9", family := some "open" }),
   ("Gadd9",
    { name := "Gadd9", shortName := some "Gadd9", positions := [3, 2, 0, 0, 3, 0],
      baseFret := 1, barres := [], quality := some "add9", family := some "open" })]

/-- `semitoneDistance` (chords.ts lines 89-93). -/
def semitoneDistance (openNote target : String) : Nat :=
  let a : Int :=
    ((NOTE_ORDER_SHARPS.findIdx? (fun s => s == openNote)).map (fun n => (n : Int))).getD (-1)
  let b : Int :=
    ((NOTE_ORDER_SHARPS.findIdx? (fun s => s == target)).map (fun n => (n : Int))).getD (-1)
  ((b - a + 12) % 12).toNat

/-- `chooseComfortableBaseFret` (chords.ts lines 96-101). -/
def chooseComfortableBaseFret (f : Nat) : Nat :=
  if f = 0 then 12
  else if 1 ≤ f ∧ f ≤ 5 then f
  else if 6 ≤ f ∧ f ≤ 9 then f
  else jsMaxN 1 (jsMinN 12 f)

/-- `baseFretFor_Eshape` (chords.ts lines 104-107). -/
def baseFretForE (root : String) : Nat :=
  chooseComfortableBaseFret (semitoneDistance "E" root)

/-- `baseFretFor_Ashape` (chords.ts lines 110-113). -/
def baseFretForA (root : String) : Nat :=
  chooseComfortableBaseFret (semitoneDistance "A" root)

/-- Barre template positions (chords.ts lines 116-122). -/
def tplPositions (system quality : String) : List Int :=
  if system = "E" then
    if quality = "maj" then [1, 3, 3, 2, 1, 1]
    else if quality = "min" then [1, 3, 3, 1, 1, 1]
    else [1, 3, 1, 2, 1, 1]
  else
    if quality = "maj" then [-1, 1, 3, 3, 3, 1]
    else if quality = "min" then [-1, 1, 3, 3, 2, 1]
    else [-1, 1, 3, 1, 3, 1]

/-- Barre template barre span (chords.ts lines 116-122). -/
def tplBarre (system : String) : Barre :=
  if system = "E" then { fromString := 0, toString := 5, fret := 1 }
  else { fromString := 1, toString := 5, fret := 1 }

/-- `makeBarre` (chords.ts lines 125-146). -/
def makeBarre (root quality system : String) (baseFret : Nat) : Shape :=
  let sn := root ++ (if quality = "min" then "m" else if quality = "7" then "7" else "")
  { name := sn ++ " (" ++ system ++ "-shape barre @" ++ Nat.repr baseFret ++ ")",
    shortName := some sn,
    positions := tplPositions system quality,
    baseFret := baseFret,
    barres := [tplBarre system],
    quality := some quality,
    family := some (if system = "E" then "barre-e" else "barre-a") }

/-- `generateBarresFor` (chords.ts lines 149-167). -/
def generateBarresFor (root quality : String) : List Shape :=
  let eBase := baseFretForE root
  let p1 : List Shape :=
    if 1 ≤ eBase ∧ eBase ≤ 12 then [makeBarre root quality "E" eBase] else []
  let eAlt := eBase + 12
  let p2 : List Shape :=
    if 13 ≤ eAlt ∧ eAlt ≤ 17 then [makeBarre root quality "E" eAlt] else []
  let aBase := baseFretForA root
  let p3 : List Shape :=
    if 1 ≤ aBase ∧ aBase ≤ 12 then [makeBarre root quality "A" aBase] else []
  let aAlt := aBase + 12
  let p4 : List Shape :=
    if 13 ≤ aAlt ∧ aAlt ≤ 17 then [makeBarre root quality "A" aAlt] else []
  stableSort (fun x y => decide (x.baseFret ≤ y.baseFret)) (p1 ++ p2 ++ p3 ++ p4)

/-- The de-duplication key `` `${v.family}|${v.baseFret}|${v.name}` ``
(chords.ts line 240). -/
def shapeKey (v : Shape) : String :=
  v.family.getD "undefined" ++ "|" ++ Nat.repr v.baseFret ++ "|" ++ v.name

/-- The `seen`-set filter of `findVoicingsFor` (chords.ts lines 238-244). -/
def dedupeShapes (seen : List String) : List Shape → List Shape
  | [] => []
  | v :: rest =>
    if seen.contains (shapeKey v) then dedupeShapes seen rest
    else v :: dedupeShapes (shapeKey v :: seen) rest

/-- The final sort comparator of `findVoicingsFor` (chords.ts lines
247-251): open shapes first, then ascending `baseFret`; `a` stays
before `b` exactly when the comparator is ≤ 0. -/
def voicingLE (a b : Shape) : Bool :=
  if a.family == some "open" && !(b.family == some "open") then true
  else if b.family == some "open" && !(a.family == some "open") then false
  else decide (a.baseFret ≤ b.baseFret)

/-- `findVoicingsFor` (chords.ts lines 202-254). -/
def findVoicingsFor (symbol : String) : Except String (List Shape) :=
  match parseChordSymbol symbol with
  | Except.error e => Except.error e
  | Except.ok none => Except.ok []
  | Except.ok (some (root, tail)) =>
    let quality := coarseQuality tail
    let openKey :=
      if quality = "min" then root ++ "m"
      else if quality = "7" then root ++ "7"
      else if quality = "maj7" then root ++ "maj7"
      else if quality = "m7" then root ++ "m7"
      else if quality = "sus4" then root ++ "sus4"
      else if quality = "add9" then root ++ "add9"
      else root
    let openPart : List Shape :=
      match List.lookup openKey OPEN_SHAPES with
      | some sh => [sh]
      | none =>
        match List.lookup root OPEN_SHAPES with
        | some sh => [sh]
        | none => []
    let barreQuality :=
      if quality = "min" ∨ quality = "7" ∨ quality = "majLike" then
        if quality = "min" then "min" else if quality = "7" then "7" else "maj"
      else
        if quality = "m7" then "min" else "maj"
    let voicings := openPart ++ generateBarresFor root barreQuality
    Except.ok (stableSort voicingLE (dedupeShapes [] voicings))

/-- The `.ok` payload of an `Except`, or a default. -/
def okOr {ε α : Type} (d : α) : Except ε α → α
  | Except.ok a => a
  | Except.error _ => d

/-- Whether an `Except` computation succeeded (did not throw). -/
def isOkE {ε α : Type} : Except ε α → Bool
  | Except.ok _ => true
  | Except.error _ => false

/- ----------------------------------------------------------------
The language of the chord-tail regex, as an inductive predicate
(used to characterise `isChordLike` independently of its scanner)
----------------------------------------------------------------- -/

/-- A permitted unit of the tail alternation: a single-character
alternative or one of the three-letter words. -/
def unitOK : List Char → Bool
  | [c] => singleTailChar c
  | [a, b, c] => tripleTail a b c
  | _ => false

/-- Star of the permitted units: the string decomposes into permitted
units. -/
inductive TailLang : List Char → Prop where
  | nil : TailLang []
  | cons {u rest : List Char} : unitOK u = true → TailLang rest → TailLang (u ++ rest)

/- ----------------------------------------------------------------
Lemmas: lossless splitting
----------------------------------------------------------------- -/

/-- Flattening the whitespace-preserving split reconstructs the input. -/
theorem jsSplitWs_flatten (l : List Char) : (jsSplitWs l).flatten = l := by
  induction l with
  | nil => rfl
  | cons c cs ih =>
    simp only [jsSplitWs]
    by_cases h : jsIsSpace c
    · simp only [h, if_true]
      rcases hr : jsSplitWs cs with _ | ⟨t, r⟩
      · rw [hr] at ih
        simp only [List.flatten_nil] at ih
        simp [List.flatten, ← ih]
      · rcases t with _ | ⟨d, t'⟩
        · rcases r with _ | ⟨w, r'⟩
          · rw [hr] at ih
            simp only [List.flatten] at ih
            simp [List.flatten, ← ih]
          · rw [hr] at ih
            simp only [List.flatten_cons, List.nil_append] at ih
            simp [List.flatten, ← ih]
        · rw [hr] at ih
          simp only [List.flatten_cons] at ih
          simp [List.flatten, ← ih]
    · simp only [h, if_false]
      rcases hr : jsSplitWs cs with _ | ⟨t, r⟩
      · rw [hr] at ih
        simp only [List.flatten_nil] at ih
        simp [List.flatten, ← ih]
      · rw [hr] at ih
        simp only [List.flatten_cons] at ih
        simp [List.flatten, ← ih]

/-- Flattening the punctuation split reconstructs the token. -/
theorem splitPunct_flatten (l : List Char) : (splitPunct l).flatten = l := by
  induction l with
  | nil => rfl
  | cons c cs ih =>
    simp only [splitPunct]
    by_cases h : punctChar c
    · simp [h, List.flatten, ih]
    · simp only [h, if_false]
      rcases hr : splitPunct cs with _ | ⟨t, r⟩
      · rw [hr] at ih
        simp only [List.flatten_nil] at ih
        simp [List.flatten, ← ih]
      · rw [hr] at ih
        simp only [List.flatten_cons] at ih
        simp [List.flatten, ← ih]

/- ----------------------------------------------------------------
Lemmas: pitch classes and transposition
----------------------------------------------------------------- -/

/-- Every value of the enharmonic table is a pitch class below 12. -/
theorem enhIndex_lt_12 (s : String) (k : Nat) (h : enhIndex s = some k) : k < 12 := by
  unfold enhIndex at h
  split at h
  all_goals (first | (injection h with h2; omega) | exact Option.noConfusion h)

/-- `norm12` is idempotent. -/
theorem norm12_idem (x : Int) : norm12 (norm12 x) = norm12 x := by
  unfold norm12
  omega

/-- `chooseSpelling` already normalises its argument. -/
theorem chooseSpelling_norm (x : Int) (p : Bool) :
    chooseSpelling (norm12 x) p = chooseSpelling x p := by
  unfold chooseSpelling
  rw [norm12_idem]

/-- Every spelling produced by `chooseSpelling` is recognised by
`normNote` verbatim, with the pitch class it was chosen for. -/
theorem chooseSpelling_pc : ∀ (m : Fin 12) (p : Bool),
    normNote (chooseSpelling (m.val : Int) p) = some (chooseSpelling (m.val : Int) p) ∧
    enhIndex (chooseSpelling (m.val : Int) p) = some m.val := by decide

/-- On a recognised note, `transposeNote` is `chooseSpelling` of the
shifted pitch class. -/
theorem transposeNote_pc {n : String} {k : Nat} (h : pitchClassOf n = some k)
    (s : Int) (p : Bool) :
    transposeNote n s p = chooseSpelling ((k : Int) + s) p := by
  unfold pitchClassOf at h
  rcases hb : normNote n with _ | note
  · rw [hb] at h; cases h
  · rw [hb] at h
    replace h : enhIndex note = some k := h
    unfold transposeNote
    rw [hb]
    simp only [indexOfNote, h, Option.getD_some]
    exact chooseSpelling_norm _ p

/-- Claim C2 helper: a recognised input's pitch class is below 12. -/
theorem pitchClassOf_lt_12 {n : String} {k : Nat} (h : pitchClassOf n = some k) : k < 12 := by
  unfold pitchClassOf at h
  rcases hb : normNote n with _ | note
  · rw [hb] at h; cases h
  · rw [hb] at h
    exact enhIndex_lt_12 note k h

/-- Bounds of `norm12`. -/
theorem norm12_bounds (x : Int) : 0 ≤ norm12 x ∧ norm12 x < 12 := by
  unfold norm12
  omega

/-- The pitch class of any `chooseSpelling` output: spelled notes are
recognised verbatim and keep their pitch class. -/
theorem pitchClassOf_chooseSpelling {j : Int} (h0 : 0 ≤ j) (h12 : j < 12) (p : Bool) :
    pitchClassOf (chooseSpelling j p) = some j.toNat := by
  have hfin : j.toNat < 12 := by omega
  have hcast : ((j.toNat : Nat) : Int) = j := Int.toNat_of_nonneg h0
  have hpc := chooseSpelling_pc ⟨j.toNat, hfin⟩ p
  simp only [Fin.val_mk] at hpc
  rw [hcast] at hpc
  unfold pitchClassOf
  rw [hpc.1]
  exact hpc.2

/- ----------------------------------------------------------------
Lemmas: stable sort
----------------------------------------------------------------- -/

/-- `stableInsert` inserts without losing or duplicating elements. -/
theorem stableInsert_perm {α : Type} (le : α → α → Bool) (x : α) (l : List α) :
    (stableInsert le x l).Perm (x :: l) := by
  induction l with
  | nil => exact List.Perm.refl _
  | cons y ys ih =>
    simp only [stableInsert]
    by_cases h : le x y
    · simp [h]
    · simp only [h, if_false]
      exact (ih.cons y).trans (List.Perm.swap x y ys)

/-- `stableSort` permutes its input. -/
theorem stableSort_perm {α : Type} (le : α → α → Bool) (l : List α) :
    (stableSort le l).Perm l := by
  induction l with
  | nil => exact List.Perm.refl _
  | cons x xs ih =>
    exact (stableInsert_perm le x (stableSort le xs)).trans (ih.cons x)

/-- `stableSort` preserves length. -/
theorem stableSort_length {α : Type} (le : α → α → Bool) (l : List α) :
    (stableSort le l).length = l.length :=
  (stableSort_perm le l).length_eq

/-- Inserting into a `le`-pairwise list keeps it pairwise, provided `le`
is total and transitive. -/
theorem stableInsert_pairwise {α : Type} (le : α → α → Bool)
    (htrans : ∀ a b c, le a b = true → le b c = true → le a c = true)
    (htot : ∀ a b, le a b = true ∨ le b a = true)
    (x : α) (l : List α) (h : l.Pairwise (fun a b => le a b = true)) :
    (stableInsert le x l).Pairwise (fun a b => le a b = true) := by
  induction l with
  | nil => simp [stableInsert]
  | cons y ys ih =>
    rcases h with _ | ⟨hy, hys⟩
    simp only [stableInsert]
    by_cases hxy : le x y
    · rw [if_pos hxy]
      refine List.Pairwise.cons ?_ (List.Pairwise.cons hy hys)
      intro z hz
      rcases List.mem_cons.mp hz with rfl | hz
      · exact hxy
      · exact htrans x y z hxy (hy z hz)
    · rw [if_neg hxy]
      refine List.Pairwise.cons ?_ (ih hys)
      intro z hz
      have hz2 := (stableInsert_perm le x ys).mem_iff.mp hz
      rcases List.mem_cons.mp hz2 with rfl | hz2
      · rcases htot y z with hyz | hzy
        · exact hyz
        · exact absurd hzy hxy
      · exact hy z hz2

/-- `stableSort` output is `le`-pairwise for total transitive `le`. -/
theorem stableSort_pairwise {α : Type} (le : α → α → Bool)
    (htrans : ∀ a b c, le a b = true → le b c = true → le a c = true)
    (htot : ∀ a b, le a b = true ∨ le b a = true)
    (l : List α) : (stableSort le l).Pairwise (fun a b => le a b = true) := by
  induction l with
  | nil => simp [stableSort]
  | cons x xs ih => exact stableInsert_pairwise le htrans htot x _ ih

/- ----------------------------------------------------------------
Lemmas: takeWhile / dropWhile over an append
----------------------------------------------------------------- -/

/-- `takeWhile` runs through a prefix on which the predicate holds. -/
theorem takeWhile_append_all {α : Type} (p : α → Bool) (l1 l2 : List α)
    (h : ∀ x ∈ l1, p x = true) :
    (l1 ++ l2).takeWhile p = l1 ++ l2.takeWhile p := by
  induction l1 with
  | nil => simp
  | cons a l ih =>
    have ha : p a = true := h a (List.mem_cons_self a l)
    simp only [List.cons_append, List.takeWhile_cons, ha, if_true]
    rw [ih (fun x hx => h x (List.mem_cons_of_mem a hx))]

/-- `dropWhile` skips a prefix on which the predicate holds. -/
theorem dropWhile_append_all {α : Type} (p : α → Bool) (l1 l2 : List α)
    (h : ∀ x ∈ l1, p x = true) :
    (l1 ++ l2).dropWhile p = l2.dropWhile p := by
  induction l1 with
  | nil => simp
  | cons a l ih =>
    have ha : p a = true := h a (List.mem_cons_self a l)
    simp only [List.cons_append, List.dropWhile_cons, ha, if_true]
    exact ih (fun x hx => h x (List.mem_cons_of_mem a hx))

/-- `takeWhile` keeps a list on which the predicate always holds. -/
theorem takeWhile_all {α : Type} (p : α → Bool) (l : List α)
    (h : ∀ x ∈ l, p x = true) : l.takeWhile p = l := by
  have := takeWhile_append_all p l [] h
  simpa using this

/- ----------------------------------------------------------------
Lemmas: the chord-likeness scanner recognises exactly the regex language
----------------------------------------------------------------- -/

/-- If the scanner accepts, the string decomposes into permitted units. -/
theorem tailStar_to_lang : ∀ (n : Nat) (l : List Char), l.length ≤ n →
    tailStar l = true → TailLang l := by
  intro n
  induction n with
  | zero =>
    intro l hl _
    rcases l with _ | ⟨c, r⟩
    · exact TailLang.nil
    · simp at hl
  | succ n ih =>
    intro l hl h
    rcases l with _ | ⟨c, _ | ⟨b, _ | ⟨d, rest⟩⟩⟩
    · exact TailLang.nil
    · replace h : (singleTailChar c && tailStar []) = true := h
      rw [Bool.and_eq_true] at h
      exact TailLang.cons (u := [c]) h.1 TailLang.nil
    · replace h : (singleTailChar c && tailStar [b]) = true := h
      rw [Bool.and_eq_true] at h
      have hb := ih [b] (by simp at hl ⊢; omega) h.2
      exact TailLang.cons (u := [c]) h.1 hb
    · replace h : ((singleTailChar c && tailStar (b :: d :: rest)) ||
        (tripleTail c b d && tailStar rest)) = true := h
      rw [Bool.or_eq_true, Bool.and_eq_true, Bool.and_eq_true] at h
      rcases h with ⟨h1, h2⟩ | ⟨h1, h2⟩
      · have hr := ih (b :: d :: rest) (by simp at hl ⊢; omega) h2
        exact TailLang.cons (u := [c]) h1 hr
      · have hr := ih rest (by simp at hl ⊢; omega) h2
        exact TailLang.cons (u := [c, b, d]) h1 hr

/-- A single permitted character prepended to an accepted string is
accepted. -/
theorem tailStar_cons_single {c : Char} {rest : List Char}
    (hc : singleTailChar c = true) (hr : tailStar rest = true) :
    tailStar (c :: rest) = true := by
  rcases rest with _ | ⟨b, _ | ⟨d, r⟩⟩
  · show (singleTailChar c && tailStar []) = true
    rw [hc]
    rfl
  · show (singleTailChar c && tailStar [b]) = true
    rw [hc, hr]
    rfl
  · show ((singleTailChar c && tailStar (b :: d :: r)) ||
      (tripleTail c b d && tailStar r)) = true
    rw [hc, hr]
    rfl

/-- If the string decomposes into permitted units, the scanner accepts. -/
theorem lang_to_tailStar {l : List Char} (h : TailLang l) : tailStar l = true := by
  induction h with
  | nil => rfl
  | cons hu _ ih =>
    rename_i u rest _
    rcases u with _ | ⟨a, _ | ⟨b, _ | ⟨c, _ | ⟨d, us⟩⟩⟩⟩
    · simp [unitOK] at hu
    · exact tailStar_cons_single hu ih
    · simp [unitOK] at hu
    · replace hu : tripleTail a b c = true := hu
      show ((singleTailChar a && tailStar (b :: c :: rest)) ||
        (tripleTail a b c && tailStar rest)) = true
      rw [hu, ih]
      simp
    · simp [unitOK] at hu

/-- `isChordLike` accepts exactly the strings of the form root letter
(either case) followed by a word of the tail language; the accidental
branch is subsumed because `#`, `b` and `B` are permitted singles. -/
theorem isChordLike_iff_lang (s : String) :
    isChordLike s = true ↔
      ∃ c rest, s.data = c :: rest ∧ isRootLetter c = true ∧ TailLang rest := by
  constructor
  · intro h
    unfold isChordLike at h
    rcases hd : s.data with _ | ⟨c, rest⟩
    · rw [hd] at h; cases h
    · rw [hd] at h
      simp only [Bool.and_eq_true, Bool.or_eq_true] at h
      refine ⟨c, rest, rfl, h.1, ?_⟩
      rcases h.2 with hts | hacc
      · exact tailStar_to_lang rest.length rest (Nat.le_refl _) hts
      · rcases hr : rest with _ | ⟨d, rest2⟩
        · exact TailLang.nil
        · rw [hr] at hacc
          simp only [Bool.and_eq_true, Bool.or_eq_true, beq_iff_eq] at hacc
          have hd2 : singleTailChar d = true := by
            rcases hacc.1 with (rfl | rfl) | rfl <;> rfl
          have := tailStar_to_lang rest2.length rest2 (Nat.le_refl _) hacc.2
          exact TailLang.cons (u := [d]) hd2 this
  · intro ⟨c, rest, hd, hroot, hlang⟩
    unfold isChordLike
    rw [hd]
    simp [hroot, lang_to_tailStar hlang]

/- ----------------------------------------------------------------
Claim theorems
----------------------------------------------------------------- -/

/-- Claim C1: flattening the whitespace-preserving split used by
`transposeChordText` reconstructs the input byte for byte; consequently
whitespace spans, and non-chord spans not subject to the punctuation
split, pass through `maybeTransposeToken` verbatim. -/
theorem splitJoin_reconstructs (t : String) (steps : Int) (p : Bool) :
    String.mk (jsSplitWs t.data).flatten = t
    ∧ (∀ tok : String, tok.data.all jsIsSpace = true →
        maybeTransposeToken tok steps p = tok)
    ∧ (∀ tok : String, (tok.data.any punctChar = false ∨ '/' ∈ tok.data) →
        isChordLike tok = false → maybeTransposeToken tok steps p = tok) := by
  refine ⟨?_, ?_, ?_⟩
  · rw [jsSplitWs_flatten]
  · intro tok hws
    unfold maybeTransposeToken
    split
    · rfl
    · rename_i hcond
      exact absurd (by simp [hws]) hcond
  · intro tok hpunct hcl
    unfold maybeTransposeToken
    split
    · rfl
    · split
      · rename_i hcond
        exfalso
        rcases hpunct with hfalse | hmem
        · rw [hcond.1] at hfalse
          cases hfalse
        · exact hcond.2 hmem
      · split
        · rename_i hcle
          rw [hcl] at hcle
          cases hcle
        · rfl

/-- Claim C1 witness at a concrete input. -/
theorem splitJoin_reconstructs_witness :
    String.mk (jsSplitWs ("C  G Am" : String).data).flatten = "C  G Am" :=
  (splitJoin_reconstructs "C  G Am" 2 true).1

/-- Claim C2: transposing a recognised note by `s` and then by `-s`
(with the same sharp preference) preserves its pitch class, though the
spelling may drift enharmonically. -/
theorem transpose_roundtrip_pitchClass (n : String) (s : Int) (p : Bool) (k : Nat)
    (h : pitchClassOf n = some k) :
    pitchClassOf (transposeNote (transposeNote n s p) (-s) p) = some k := by
  have hk12 : k < 12 := pitchClassOf_lt_12 h
  rw [transposeNote_pc h s p]
  rw [← chooseSpelling_norm ((k : Int) + s) p]
  have hb1 := norm12_bounds ((k : Int) + s)
  have hmid := pitchClassOf_chooseSpelling hb1.1 hb1.2 p
  rw [transposeNote_pc hmid (-s) p]
  rw [← chooseSpelling_norm (((norm12 ((k : Int) + s)).toNat : Int) + (-s)) p]
  have hb2 := norm12_bounds (((norm12 ((k : Int) + s)).toNat : Int) + (-s))
  rw [pitchClassOf_chooseSpelling hb2.1 hb2.2 p]
  simp only [Option.some.injEq]
  have h1 := norm12_bounds ((k : Int) + s)
  unfold norm12 at h1 ⊢
  omega

/-- Claim C2 witness: a concrete flat-spelled round trip. -/
theorem transpose_roundtrip_pitchClass_witness :
    pitchClassOf "Db" = some 1 ∧
    pitchClassOf (transposeNote (transposeNote "Db" 3 true) (-3) true) = some 1 :=
  ⟨by decide, transpose_roundtrip_pitchClass "Db" 3 true 1 (by decide)⟩

/-- Claim C3 counterexample: `parseChordSymbol` (and hence
`findVoicingsFor`) raises on the lowercase-rooted token `"em"`: the
`/i` regex matches root `"e"`, which the case-sensitive `toSharp`
rejects with `throw new Error("Bad note: e")`. -/
theorem parseChordSymbol_em_raises :
    parseChordSymbol "em" = Except.error "Bad note: e" ∧
    findVoicingsFor "em" = Except.error "Bad note: e" := by decide

/-- Claim C3 as amended: the transpose.ts functions fail soft —
an unrecognised note passes through `transposeNote` unchanged and an
unmatched symbol passes through `transposeChordSymbol` unchanged — and
`parseChordSymbol` / `findVoicingsFor` return `null` / `[]` without
raising when their regex does not match, and succeed whenever the
matched root sharp-normalises; but they raise when it does not
(e.g. on `"em"`). -/
theorem parse_error_handling_amended :
    (∀ (raw : String) (s : Int) (p : Bool), normNote raw = none →
        transposeNote raw s p = raw)
    ∧ (∀ (sym : String) (s : Int) (p : Bool), chordReMatch sym.data = none →
        '/' ∉ sym.data → transposeChordSymbol sym s p = sym)
    ∧ (∀ sym : String, parseRe sym.data = none → parseChordSymbol sym = Except.ok none)
    ∧ (∀ sym : String, parseRe sym.data = none → findVoicingsFor sym = Except.ok [])
    ∧ (∀ (sym : String) (root tail : List Char), parseRe sym.data = some (root, tail) →
        isOkE (toSharp (String.mk root)) = true →
        isOkE (parseChordSymbol sym) = true ∧ isOkE (findVoicingsFor sym) = true) := by
  refine ⟨?_, ?_, ?_, ?_, ?_⟩
  · intro raw s p h
    unfold transposeNote
    rw [h]
  · intro sym s p hm hns
    unfold transposeChordSymbol
    rw [if_neg hns]
    unfold tcsNoSlash
    rw [hm]
  · intro sym h
    unfold parseChordSymbol
    rw [h]
  · intro sym h
    have hp : parseChordSymbol sym = Except.ok none := by
      unfold parseChordSymbol
      rw [h]
    unfold findVoicingsFor
    rw [hp]
  · intro sym root tail h hok
    rcases hts : toSharp (String.mk root) with e | r
    · rw [hts] at hok
      simp [isOkE] at hok
    · have hp : parseChordSymbol sym =
          Except.ok (some (r, String.mk (tail.map jsToLower))) := by
        unfold parseChordSymbol
        rw [h]
        show (match toSharp (String.mk root) with
          | Except.error e => Except.error e
          | Except.ok r2 => Except.ok (some (r2, String.mk (tail.map jsToLower)))) =
          Except.ok (some (r, String.mk (tail.map jsToLower)))
        rw [hts]
      constructor
      · rw [hp]
        rfl
      · unfold findVoicingsFor
        rw [hp]
        rfl

/-- Claim C3 witness: a non-matching token is parsed to `null` without
raising. -/
theorem parse_error_handling_amended_witness :
    parseRe ("!!" : String).data = none ∧ parseChordSymbol "!!" = Except.ok none :=
  ⟨by decide, parse_error_handling_amended.2.2.1 "!!" (by decide)⟩

/-- Claim C9: the case-insensitive chord heuristics rewrite some
all-lowercase prose tokens: `"face"` becomes `"Gace"` under a
whole-tone transposition, and `isChordLike "em"` holds. -/
theorem lowercase_prose_transposed :
    transposeChordText "face" 2 true = "Gace" ∧ isChordLike "em" = true := by decide

/-- Claim C10: with zero steps, `transposeNote` returns the canonical
preference-directed spelling of the input's pitch class — e.g. `"Db"`
becomes `"C#"` — so `transposeChordText` at steps 0 is not the textual
identity on recognised tokens. -/
theorem transposeNote_zero_canonicalizes (n : String) (k : Nat) (p : Bool)
    (h : pitchClassOf n = some k) :
    transposeNote n 0 p = chooseSpelling (k : Int) p
    ∧ transposeNote "Db" 0 true = "C#"
    ∧ transposeChordText "Db" 0 true = "C#" := by
  refine ⟨?_, by decide, by decide⟩
  have := transposeNote_pc h 0 p
  simpa using this

/-- Claim C10 witness at `"Db"`. -/
theorem transposeNote_zero_canonicalizes_witness :
    pitchClassOf "Db" = some 1 ∧ transposeNote "Db" 0 true = chooseSpelling (1 : Int) true :=
  ⟨by decide, (transposeNote_zero_canonicalizes "Db" 1 true (by decide)).1⟩

/-- Appending strings appends their character lists. -/
theorem stringMk_append (a b : List Char) : String.mk a ++ String.mk b = String.mk (a ++ b) := rfl

/-- Claim C5: `transposeChordSymbol` splits a slash chord on `/` and
transposes each half independently, rejoining with `/`; a non-slash
token matching `CHORD_RE` has only its root transposed, the tail is
kept verbatim; a non-matching token passes through unchanged; and
`transposeChordSymbol "C/E" (-2) false = "Bb/D"`. -/
theorem transposeChordSymbol_spec :
    (∀ (top bass : String) (s : Int) (p : Bool), '/' ∉ top.data → '/' ∉ bass.data →
        transposeChordSymbol (top ++ "/" ++ bass) s p =
          transposeChordSymbol top s p ++ "/" ++ transposeChordSymbol bass s p)
    ∧ (∀ (sym : String) (s : Int) (p : Bool) (root tail : List Char), '/' ∉ sym.data →
        chordReMatch sym.data = some (root, tail) →
        transposeChordSymbol sym s p =
          String.mk ((transposeNote (String.mk root) s p).data ++ tail))
    ∧ (∀ (sym : String) (s : Int) (p : Bool), '/' ∉ sym.data →
        chordReMatch sym.data = none → transposeChordSymbol sym s p = sym)
    ∧ transposeChordSymbol "C/E" (-2) false = "Bb/D" := by
  refine ⟨?_, ?_, ?_, by decide⟩
  · intro top bass s p ht hb
    have hdata : (top ++ "/" ++ bass).data = top.data ++ '/' :: bass.data := by
      show (top.data ++ "/".data) ++ bass.data = top.data ++ '/' :: bass.data
      simp
    have hall : ∀ x ∈ top.data, (fun c => decide (c ≠ '/')) x = true := by
      intro x hx
      simp only [decide_eq_true_eq]
      intro he
      subst he
      exact ht hx
    have hallb : ∀ x ∈ bass.data, (fun c => decide (c ≠ '/')) x = true := by
      intro x hx
      simp only [decide_eq_true_eq]
      intro he
      subst he
      exact hb hx
    have hmem : '/' ∈ (top ++ "/" ++ bass).data := by
      rw [hdata]
      simp
    have h1 : (top.data ++ '/' :: bass.data).takeWhile (fun c => decide (c ≠ '/')) =
        top.data := by
      rw [takeWhile_append_all _ _ _ hall]
      simp
    have h2 : (top.data ++ '/' :: bass.data).dropWhile (fun c => decide (c ≠ '/')) =
        '/' :: bass.data := by
      rw [dropWhile_append_all _ _ _ hall]
      simp
    have h3 : bass.data.takeWhile (fun c => decide (c ≠ '/')) = bass.data :=
      takeWhile_all _ _ hallb
    conv_lhs => unfold transposeChordSymbol
    rw [if_pos hmem, hdata, h1, h2]
    simp only [List.drop_succ_cons, List.drop_zero, h3]
    conv_rhs => unfold transposeChordSymbol
    rw [if_neg ht, if_neg hb, stringMk_append, stringMk_append]
    apply congrArg String.mk
    simp
  · intro sym s p root tail hns hm
    unfold transposeChordSymbol
    rw [if_neg hns]
    unfold tcsNoSlash
    rw [hm]
  · intro sym s p hns hm
    unfold transposeChordSymbol
    rw [if_neg hns]
    unfold tcsNoSlash
    rw [hm]

/-- Claim C5 witness: the slash-split law at `"C"`, `"E"`. -/
theorem transposeChordSymbol_spec_witness :
    transposeChordSymbol ("C" ++ "/" ++ "E") (-2) false =
      transposeChordSymbol "C" (-2) false ++ "/" ++ transposeChordSymbol "E" (-2) false :=
  transposeChordSymbol_spec.1 "C" "E" (-2) false (by decide) (by decide)

/-- Claim C6 counterexample: the root check of `looksLikeChord` is NOT
case-sensitive — `isChordLike "em"` is true although its first
character `'e'` is not an uppercase letter A–G. -/
theorem isChordLike_lowercase_cex :
    isChordLike "em" = true ∧ ("em" : String).data.head? = some 'e' ∧
    ¬ ('A' ≤ 'e' ∧ 'e' ≤ 'G') := by decide

/-- Claim C6 as amended: `isChordLike` holds exactly when the token
starts with a letter A–G in either case (the regex carries the `/i`
flag, so the root check is case-insensitive) followed by a word of the
permitted tail language; `"Bb7/D"` is accepted and `"Take"`/`"take"`
are rejected, but so is the lowercase-rooted `"em"` accepted. -/
theorem isChordLike_characterization (s : String) :
    (isChordLike s = true ↔
      ∃ c rest, s.data = c :: rest ∧ isRootLetter c = true ∧ TailLang rest)
    ∧ isChordLike "Bb7/D" = true ∧ isChordLike "Take" = false ∧
      isChordLike "take" = false ∧ isChordLike "em" = true :=
  ⟨isChordLike_iff_lang s, by decide, by decide, by decide, by decide⟩

/-- Claim C6 witness: the characterization applied at `"Bb7/D"`. -/
theorem isChordLike_characterization_witness :
    ∃ c rest, ("Bb7/D" : String).data = c :: rest ∧ isRootLetter c = true ∧ TailLang rest :=
  ((isChordLike_characterization "Bb7/D").1).mp (by decide)

/-- Claim C7 counterexample: a whitespace-free token containing
punctuation is NOT further split when it also contains a slash — the
guard is `/[,\|\(\)\[\]]/.test(tok) && !tok.includes("/")` — so
`"(C/E)"` passes through unchanged even though its inner piece
`"C/E"` is chord-like and would transpose to `"D/F#"`. -/
theorem punct_slash_token_not_split :
    transposeChordText "(C/E)" 2 true = "(C/E)" ∧ isChordLike "C/E" = true ∧
    transposeChordSymbol "C/E" 2 true = "D/F#" := by decide

/-- Claim C7 as amended: for every nonempty whitespace-free token that
contains bracket/comma/pipe punctuation AND no slash, the token is
split at each punctuation character, each piece is transposed iff it is
chord-like, the split is lossless, and punctuation pieces pass through
untransformed. -/
theorem punct_split_amended (tok : String) (steps : Int) (p : Bool)
    (h1 : tok.data ≠ []) (h2 : ∀ c ∈ tok.data, jsIsSpace c = false)
    (h3 : tok.data.any punctChar = true) (h4 : '/' ∉ tok.data) :
    maybeTransposeToken tok steps p =
      String.mk (((splitPunct tok.data).map (fun piece =>
        if isChordLike (String.mk piece) then (transposeChordSymbol (String.mk piece) steps p).data
        else piece)).flatten)
    ∧ (splitPunct tok.data).flatten = tok.data
    ∧ (∀ c : Char, punctChar c = true →
        (if isChordLike (String.mk [c]) then (transposeChordSymbol (String.mk [c]) steps p).data
         else [c]) = [c]) := by
  refine ⟨?_, splitPunct_flatten tok.data, ?_⟩
  · unfold maybeTransposeToken
    have hw : (tok.data.isEmpty || tok.data.all jsIsSpace) = false := by
      rcases hd : tok.data with _ | ⟨c, rest⟩
      · exact absurd hd h1
      · have hc := h2 c (by rw [hd]; exact List.mem_cons_self c rest)
        simp [hc]
    rw [if_neg (by simp [hw]), if_pos ⟨h3, h4⟩]
  · intro c hc
    have hns : isChordLike (String.mk [c]) = false := by
      unfold punctChar at hc
      simp only [Bool.or_eq_true, beq_iff_eq] at hc
      rcases hc with ((((rfl | rfl) | rfl) | rfl) | rfl) | rfl <;> decide
    rw [hns]
    simp

/-- Claim C7 witness: the split law at the token `"(G)"`. -/
theorem punct_split_amended_witness :
    maybeTransposeToken "(G)" 2 true =
      String.mk (((splitPunct ("(G)" : String).data).map (fun piece =>
        if isChordLike (String.mk piece) then (transposeChordSymbol (String.mk piece) 2 true).data
        else piece)).flatten) :=
  (punct_split_amended "(G)" 2 true (by decide) (by decide) (by decide) (by decide)).1

/-- Claim C8: `findVoicingsFor "F#m"` succeeds with a non-empty list
containing a barre voicing, no open voicing, and every barre voicing's
`baseFret` is F#'s semitone distance from the open E string (2) or the
open A string (9), possibly raised one octave into 13–17. -/
theorem findVoicingsFor_FSharpM :
    isOkE (findVoicingsFor "F#m") = true
    ∧ okOr [] (findVoicingsFor "F#m") ≠ []
    ∧ (∃ v ∈ okOr [] (findVoicingsFor "F#m"),
        v.family = some "barre-e" ∨ v.family = some "barre-a")
    ∧ (∀ v ∈ okOr [] (findVoicingsFor "F#m"), v.family ≠ some "open")
    ∧ (∀ v ∈ okOr [] (findVoicingsFor "F#m"),
        (v.family = some "barre-e" ∨ v.family = some "barre-a") →
        v.baseFret = semitoneDistance "E" "F#" ∨
        v.baseFret = semitoneDistance "A" "F#" ∨
        (v.baseFret = semitoneDistance "E" "F#" + 12 ∧ 13 ≤ v.baseFret ∧ v.baseFret ≤ 17) ∨
        (v.baseFret = semitoneDistance "A" "F#" + 12 ∧ 13 ≤ v.baseFret ∧ v.baseFret ≤ 17)) := by
  decide

unseal Rat.add Rat.mul Rat.sub Rat.inv in
/-- Claim C4: `suggestCaposForTargetKey` scores all twelve frets 0–11 as
(+100 for an easy open-shape key) plus the positional comfort term
(20 − 2·fret for fret ≤ 5, else max(0, 10 − 3·(fret−5))) plus a small
tie-breaking bias ordered G > C > D > A > E, sorts descending by score,
and returns exactly the top five; in particular
`suggestCaposForTargetKey "C"` starts with capo fret 0. -/
theorem capoSuggestions_spec :
    (∀ (k : String) (f : Nat), scoreCapo k f =
        (if OPEN_SHAPE_KEYS.contains k then (100 : ℚ) else 0) +
        (if f ≤ 5 then 20 - 2 * (f : ℚ) else jsMaxQ 0 (10 - 3 * ((f : ℚ) - 5))) +
        capoBias k)
    ∧ (capoBias "G" = 5 / 2 ∧ capoBias "C" = 2 ∧ capoBias "D" = 3 / 2 ∧
        capoBias "A" = 1 ∧ capoBias "E" = 1 / 2)
    ∧ (∀ k : String, 0 ≤ capoBias k ∧ capoBias k ≤ 5 / 2)
    ∧ (∀ t : String, (suggestCaposForTargetKey t).length = 5)
    ∧ (∀ t : String, (suggestCaposForTargetKey t).Pairwise (fun a b => b.score ≤ a.score))
    ∧ (∀ (t : String) (sg : CapoSuggestion), sg ∈ suggestCaposForTargetKey t →
        sg.capoFret < 12 ∧ sg.shapesKey = shapesKeyFor t sg.capoFret ∧
        sg.score = scoreCapo sg.shapesKey sg.capoFret)
    ∧ (suggestCaposForTargetKey "C").head?.map CapoSuggestion.capoFret = some 0 := by
  refine ⟨?_, ⟨by decide, by decide, by decide, by decide, by decide⟩, ?_, ?_, ?_, ?_, by decide⟩
  · intro k f
    unfold scoreCapo
    by_cases h5 : f ≤ 5
    · simp only [if_pos h5]
      ring
    · simp only [if_neg h5]
      rw [show (10 - ((f : ℚ) - 5) * 3) = (10 - 3 * ((f : ℚ) - 5)) from by ring]
  · intro k
    simp only [capoBias]
    generalize ((["G", "C", "D", "A", "E"].findIdx? (fun s => s == k)).map
      (fun n => (n : Int))).getD (-1) = idx
    have h0 : (0 : Int) ≤ jsMaxI 0 (5 - jsMaxI 0 idx) := by
      unfold jsMaxI
      split_ifs <;> omega
    have h5 : jsMaxI 0 (5 - jsMaxI 0 idx) ≤ 5 := by
      unfold jsMaxI
      split_ifs <;> omega
    constructor
    · have hc0 : (0 : ℚ) ≤ ((jsMaxI 0 (5 - jsMaxI 0 idx) : Int) : ℚ) := by exact_mod_cast h0
      exact mul_nonneg hc0 (by norm_num)
    · have hc5 : ((jsMaxI 0 (5 - jsMaxI 0 idx) : Int) : ℚ) ≤ 5 := by exact_mod_cast h5
      calc ((jsMaxI 0 (5 - jsMaxI 0 idx) : Int) : ℚ) * (1 / 2) ≤ 5 * (1 / 2) :=
            mul_le_mul_of_nonneg_right hc5 (by norm_num)
        _ = 5 / 2 := by norm_num
  · intro t
    have h12 : (capoCandidates t).length = 12 := by
      unfold capoCandidates
      simp
    unfold suggestCaposForTargetKey
    rw [List.length_take, stableSort_length, h12]
    omega
  · intro t
    have htrans : ∀ a b c : CapoSuggestion,
        capoLE a b = true → capoLE b c = true → capoLE a c = true := by
      intro a b c hab hbc
      unfold capoLE at hab hbc ⊢
      simp only [decide_eq_true_eq] at hab hbc ⊢
      exact le_trans hbc hab
    have htot : ∀ a b : CapoSuggestion, capoLE a b = true ∨ capoLE b a = true := by
      intro a b
      unfold capoLE
      simp only [decide_eq_true_eq]
      exact le_total b.score a.score
    have hp := stableSort_pairwise capoLE htrans htot (capoCandidates t)
    unfold suggestCaposForTargetKey
    have hps := hp.sublist (List.take_sublist 5 _)
    refine hps.imp ?_
    intro a b hab
    simpa [capoLE] using hab
  · intro t sg hmem
    have h1 : sg ∈ stableSort capoLE (capoCandidates t) :=
      List.take_subset _ _ hmem
    have h2 : sg ∈ capoCandidates t := (stableSort_perm capoLE _).mem_iff.mp h1
    unfold capoCandidates at h2
    rcases List.mem_map.mp h2 with ⟨fret, hfret, rfl⟩
    exact ⟨List.mem_range.mp hfret, rfl, rfl⟩
